import Mathlib

/-!
# Verification of the quota / gap engine of `new_tendency_analysis.py`

Shallow embedding of the computational core of the repository's single
source file.  Python strings are modelled as lists of Unicode code
points (`PyStr`); pandas columns become Lean lists; floats produced by
the pipeline (rolling averages, business-day equivalents, daily rates)
are modelled as rationals; `np.where` chains become nested `if`s.

The behaviour of the Python standard library used by the source
(`str.strip`, `str.split`, `str.upper`, `str.lower`, `str.isdigit`,
`unicodedata.normalize("NFKD", ·)`, `unicodedata.combining`) is modelled
at the code-point level, following the published Unicode data for the
characters that occur in this development (ASCII, the Latin-1 accented
letters, and U+00A8 DIAERESIS, whose compatibility decomposition is
U+0020 U+0308).
-/

/-- A Python string, modelled as its list of Unicode code points. -/
abbrev PyStr := List Nat

/-- Code points of a Lean string literal, used to write concrete inputs. -/
def pstr (s : String) : PyStr := s.data.map Char.toNat

/-- Python `str.isspace` / the whitespace classes used by `str.strip` and
`str.split`, for the code points modelled here (ASCII whitespace, the C1
NEL and NBSP). -/
def pyIsSpace (c : Nat) : Bool :=
  c == 32 || c == 9 || c == 10 || c == 13 || c == 11 || c == 12 ||
  c == 28 || c == 29 || c == 30 || c == 31 || c == 133 || c == 160

/-- Python `str.upper`, per code point (ASCII `a`-`z` and the Latin-1
lowercase accented letters map down by 32; everything else modelled is
fixed by upper-casing). -/
def upChar (c : Nat) : Nat :=
  if 97 ≤ c ∧ c ≤ 122 then c - 32
  else if 224 ≤ c ∧ c ≤ 254 ∧ c ≠ 247 then c - 32
  else c

/-- Python `str.lower`, per code point (ASCII range; folio keys are
ASCII). -/
def lowChar (c : Nat) : Nat :=
  if 65 ≤ c ∧ c ≤ 90 then c + 32 else c

/-- NFKD decomposition of one code point (Unicode data for the modelled
characters: accented Latin-1 letters split into base letter plus
combining mark; U+00A8 DIAERESIS decomposes to SPACE + COMBINING
DIAERESIS; everything else modelled is NFKD-stable). -/
def nfkdChar (c : Nat) : List Nat :=
  if c = 168 then [32, 776]
  else if c = 193 then [65, 769]   -- A acute
  else if c = 201 then [69, 769]   -- E acute
  else if c = 205 then [73, 769]   -- I acute
  else if c = 211 then [79, 769]   -- O acute
  else if c = 218 then [85, 769]   -- U acute
  else if c = 209 then [78, 771]   -- N tilde
  else if c = 220 then [85, 776]   -- U diaeresis
  else if c = 225 then [97, 769]
  else if c = 233 then [101, 769]
  else if c = 237 then [105, 769]
  else if c = 243 then [111, 769]
  else if c = 250 then [117, 769]
  else if c = 241 then [110, 771]
  else if c = 252 then [117, 776]
  else [c]

/-- `unicodedata.combining(c) != 0`, for the modelled code points (the
combining grave, acute, tilde and diaeresis marks). -/
def isCombiningChar (c : Nat) : Bool :=
  c == 768 || c == 769 || c == 771 || c == 776

/-- Python `str.strip()`: drop whitespace from both ends. -/
def pyStrip (s : PyStr) : PyStr :=
  ((s.dropWhile pyIsSpace).reverse.dropWhile pyIsSpace).reverse

/-- Helper for `pyWords`: accumulates the current word (reversed). -/
def pyWordsAux : PyStr → PyStr → List PyStr
  | acc, [] => if acc.isEmpty then [] else [acc.reverse]
  | acc, c :: cs =>
    if pyIsSpace c then
      if acc.isEmpty then pyWordsAux [] cs else acc.reverse :: pyWordsAux [] cs
    else pyWordsAux (c :: acc) cs

/-- Python `str.split()` with no separator: the maximal whitespace-free
runs. -/
def pyWords (s : PyStr) : List PyStr := pyWordsAux [] s

/-- Python `" ".join(ws)`: the words interleaved with single spaces. -/
def spaceJoin : List PyStr → PyStr
  | [] => []
  | [w] => w
  | w :: ws => w ++ 32 :: spaceJoin ws

/-- `normalize_name` (source lines 97-103): strip, upper-case, collapse
internal whitespace runs to single spaces, NFKD-decompose and delete the
combining marks. -/
def normalize_name (s : PyStr) : PyStr :=
  let s1 := (pyStrip s).map upChar
  let s2 := spaceJoin (pyWords s1)
  let s3 := s2.flatMap nfkdChar
  s3.filter (fun c => !(isCombiningChar c))

/-- `"0123456789"` digits. -/
def isDigitChar (c : Nat) : Bool := 48 ≤ c && c ≤ 57

/-- Python `str.isdigit()` (nonempty and all digits; ASCII inputs). -/
def pyIsDigits (s : PyStr) : Bool := !s.isEmpty && s.all isDigitChar

/-- Python `s.strip("0")`: drop `0` characters from both ends. -/
def stripZeros (s : PyStr) : PyStr :=
  ((s.dropWhile (· == 48)).reverse.dropWhile (· == 48)).reverse

/-- Python `str.lower` on a whole string. -/
def pyLower (s : PyStr) : PyStr := s.map lowChar

/-- `normalize_folio_key` (source lines 107-131): canonicalize a folio
identifier so numeric artifacts like `123.0` join with `123`. -/
def normalize_folio_key : Option PyStr → PyStr
  | none => []
  | some x =>
    let s := pyStrip x
    if s.isEmpty || pyLower s == pstr "nan" || pyLower s == pstr "none" then []
    else if (pstr ".0").isSuffixOf s && pyIsDigits (s.take (s.length - 2)) then
      s.take (s.length - 2)
    else if s.contains 46 then
      let left := s.takeWhile (fun c => c != 46)
      let right := s.drop (left.length + 1)
      if pyIsDigits left && (stripZeros right).isEmpty then left else s
    else s

/-! ## In-transit classifier and per-executive delivery split
(`load_programadas_split_by_exec`, source lines 358-419) -/

/-- One row of the `reporte_programacion_entrega` feed: seller, delivery
status and the linked sale amount (`VENTA`, possibly null). -/
structure ProgRecord where
  vendedor : PyStr
  estatus : PyStr
  venta : Option PyStr
  deriving DecidableEq

/-- `_venta_vacia` (source lines 383-389): the linked-sale field is
blank — null (also the NaN float, which reaches the model as `none`),
empty after trimming, or the literal text `nan` / `none`. -/
def venta_vacia : Option PyStr → Bool
  | none => true
  | some x =>
    let s := pyStrip x
    s.isEmpty || pyLower s == pstr "nan" || pyLower s == pstr "none"

/-- Normalized status of a delivery record: the source strips the raw
`ESTATUS` column and maps `normalize_name` over it (lines 378-379). -/
def est_norm (estatus : PyStr) : PyStr := normalize_name (pyStrip estatus)

/-- `is_transito` (source lines 393-395): the normalized status is one
of the four in-transit statuses, or it is `ENTREGADO` with a blank
linked-sale amount. -/
def is_transito (estatus : PyStr) (venta : Option PyStr) : Bool :=
  (est_norm estatus == pstr "EN ENTREGA" ||
   est_norm estatus == pstr "EN PREPARACION" ||
   est_norm estatus == pstr "SOLICITADO" ||
   est_norm estatus == pstr "BACK OFFICE") ||
  (est_norm estatus == pstr "ENTREGADO" && venta_vacia venta)

/-- `is_canc` (source line 398): the cancellation-error status. -/
def is_canc (estatus : PyStr) : Bool := est_norm estatus == pstr "CANC ERROR"

/-- Rows of the split that belong to seller key `v` (the source groups by
the stripped `VENDEDOR`, line 377/407) after dropping `Canc Error` rows
(line 399). -/
def prog_rows_for (recs : List ProgRecord) (v : PyStr) : List ProgRecord :=
  recs.filter (fun r => pyStrip r.vendedor == v && !(is_canc r.estatus))

/-- `hechas_mes` for seller key `v` (lines 404, 409): non-cancelled rows
not classified in-transit. -/
def hechas_mes (recs : List ProgRecord) (v : PyStr) : Nat :=
  ((prog_rows_for recs v).filter (fun r => !(is_transito r.estatus r.venta))).length

/-- `transito_mes` for seller key `v` (lines 403, 410). -/
def transito_mes (recs : List ProgRecord) (v : PyStr) : Nat :=
  ((prog_rows_for recs v).filter (fun r => is_transito r.estatus r.venta)).length

/-- `total_mes` (line 416): completed plus in-transit. -/
def total_mes (recs : List ProgRecord) (v : PyStr) : Nat :=
  hechas_mes recs v + transito_mes recs v

/-- One row of the aggregated split `g` (lines 406-418). -/
structure ProgAgg where
  hechas : Nat
  transito : Nat
  total : Nat
  deriving DecidableEq

/-- The `g` row for seller key `v` (lines 406-418): grouped counts with
`total_mes = hechas_mes + transito_mes`. -/
def prog_row (recs : List ProgRecord) (v : PyStr) : ProgAgg :=
  ⟨hechas_mes recs v, transito_mes recs v, total_mes recs v⟩

/-! ## Quota policy (`meta_mes`, source lines 1050-1062, and the
simulation copy, lines 828-840) -/

/-- The tiered quota formula: nested `np.where` over tenure and the
rolling average (floats modelled as rationals, `np.floor` as `Int.floor`;
the `.astype(int)` cast is exact because every branch is an integer). -/
def meta_mes (ten : Nat) (prom : ℚ) : ℤ :=
  if ten < 41 then 6
  else if 7 ≤ prom then ⌊prom⌋ + 1
  else if 6 ≤ prom then ⌊prom⌋ + 2
  else 7

/-- The `status` column of the simulation table (source line 804):
`ACTIVO` iff the last month of the interval has a positive count. -/
def status_sim (lastMonthCount : Nat) : PyStr :=
  if 0 < lastMonthCount then pstr "ACTIVO" else pstr "BAJA"

/-- The final `meta simulacion` column: the formula (lines 828-840)
with the `BAJA ⇒ 0` override of line 854 applied. -/
def meta_simulacion (status : PyStr) (ten : Nat) (prom : ℚ) : ℤ :=
  if status = pstr "BAJA" then 0 else meta_mes ten prom

/-- A row of the metas table before the active-only filter: status,
tenure days and rolling average (`df_metas`, lines 981-1005). -/
structure MetaRow where
  status : PyStr
  ten : Nat
  prom : ℚ

/-- Source line 1006: the metas table keeps only `ACTIVO` rows. -/
def metas_active_filter (rows : List MetaRow) : List MetaRow :=
  rows.filter (fun r => r.status == pstr "ACTIVO")

/-! ## Rolling average with leading-zero suppression
(source lines 1030-1045, and the simulation copy, lines 786-800) -/

/-- `has_nz` (line 1035): some month in the window has a nonzero count. -/
def has_nz (vals : List Nat) : Bool := vals.any (fun v => 0 < v)

/-- `first_i` (line 1036): `np.argmax` of the nonzero mask — the index of
the first nonzero month, and 0 when the mask is all false. -/
def first_i (vals : List Nat) : Nat :=
  if has_nz vals then vals.findIdx (fun v => 0 < v) else 0

/-- `prom_ult_3m` (lines 1038-1044): the suffix sum from the first
nonzero index divided by the number of months from that index to the end,
and 0 for an all-zero window. -/
def prom_ult_3m (vals : List Nat) : ℚ :=
  if has_nz vals then
    ((vals.drop (first_i vals)).sum : ℚ) / ((vals.length - first_i vals : Nat) : ℚ)
  else 0

/-! ## Gap and required-rate engine (sanity check, lines 1254-1341) -/

/-- A row of the per-executive sanity table: quota, completed,
in-transit, the stored total and the gap. -/
structure SanityRow where
  meta : Nat
  hechas : Nat
  transito : Nat
  total : Nat
  gap : ℤ

/-- Build a sanity row from the quota and the merge result against the
delivery split (lines 1278-1299): an unmatched executive gets 0 for all
three counts via `fillna(0)`, and `gap_meta = meta_mes_actual -
total_ventas_hechas_mes`. -/
def mkSanityRow (meta : Nat) (m : Option ProgAgg) : SanityRow :=
  match m with
  | none => ⟨meta, 0, 0, 0, (meta : ℤ) - 0⟩
  | some a => ⟨meta, a.hechas, a.transito, a.total, (meta : ℤ) - (a.total : ℤ)⟩

/-- The merge input of one sanity row: the quota and, when the executive
matched a row of the delivery split `g`, that row's underlying records
and seller key. -/
abbrev SanityInput := Nat × Option (List ProgRecord × PyStr)

/-- The sanity row built from one merge input. -/
def sanityRowOf (i : SanityInput) : SanityRow :=
  mkSanityRow i.1 (i.2.map (fun rv => prog_row rv.1 rv.2))

/-- `dias_hab_eq_remaining_for_rate` (lines 1264-1266): a remaining
business-day equivalent strictly between 0 and 1 is replaced by 1. -/
def remaining_for_rate (rem : ℚ) : ℚ :=
  if 0 < rem ∧ rem < 1 then 1 else rem

/-- `ventas_diarias_necesarias_desde_hoy` (lines 1312-1317, and the
team/centro/global copies, lines 1428-1433, 1516-1521, 1595-1600): the
clipped gap divided by the adjusted remaining days, or the clipped gap
itself when that adjusted value is not positive. -/
def ventas_diarias_necesarias_desde_hoy (gap : ℤ) (remRate : ℚ) : ℚ :=
  if 0 < remRate then max (gap : ℚ) 0 / remRate else max (gap : ℚ) 0

/-! ## Mexican business calendar (source lines 1189-1251)

`datetime.date` is modelled as a year/month/day triple in the proleptic
Gregorian calendar; `date.toordinal()` and `date.weekday()` (Monday = 0)
are reproduced arithmetically. -/

/-- A calendar date. -/
structure Pdate where
  year : Nat
  month : Nat
  day : Nat
  deriving DecidableEq

/-- Gregorian leap year. -/
def isLeap (y : Nat) : Bool := y % 4 == 0 && (y % 100 != 0 || y % 400 == 0)

/-- Length of month `m` of year `y`. -/
def daysInMonth (y m : Nat) : Nat :=
  if m = 2 then (if isLeap y then 29 else 28)
  else if m = 4 ∨ m = 6 ∨ m = 9 ∨ m = 11 then 30
  else 31

/-- Days in the months of year `y` strictly before month `m`. -/
def daysBeforeMonth (y m : Nat) : Nat :=
  ((List.range (m - 1)).map (fun i => daysInMonth y (i + 1))).sum

/-- Python `date.toordinal()`: day count with 0001-01-01 ↦ 1. -/
def toOrdinal (d : Pdate) : Nat :=
  365 * (d.year - 1) + ((d.year - 1) / 4 - (d.year - 1) / 100) +
    (d.year - 1) / 400 + daysBeforeMonth d.year d.month + d.day

/-- Python `date.weekday()`: Monday = 0 … Sunday = 6. -/
def weekday (d : Pdate) : Nat := (toOrdinal d + 6) % 7

/-- `_nth_weekday_of_month` (source lines 1189-1194): the first day of
the month shifted forward to the target weekday, plus `7*(n-1)` days. -/
def nth_weekday_of_month (y m w n : Nat) : Pdate :=
  let shift : Nat := (((w : ℤ) - (weekday ⟨y, m, 1⟩ : ℤ)) % 7).toNat
  ⟨y, m, 1 + shift + 7 * (n - 1)⟩

/-- `mexico_puentes` (source lines 1197-1206): the fixed holiday set of
year `y`, modelled as a list. -/
def mexico_puentes (y : Nat) : List Pdate :=
  [⟨y, 1, 1⟩,
   nth_weekday_of_month y 2 0 1,
   nth_weekday_of_month y 3 0 3,
   ⟨y, 5, 1⟩,
   ⟨y, 9, 16⟩,
   nth_weekday_of_month y 11 0 3,
   ⟨y, 12, 25⟩]

/-- The day after `d`. -/
def nextDay (d : Pdate) : Pdate :=
  if d.day < daysInMonth d.year d.month then ⟨d.year, d.month, d.day + 1⟩
  else if d.month < 12 then ⟨d.year, d.month + 1, 1⟩
  else ⟨d.year + 1, 1, 1⟩

/-- The `n + 1` consecutive days starting at `s` (the
`pd.date_range(start, end, freq="D")` of source line 1212). -/
def dateRange (s : Pdate) : Nat → List Pdate
  | 0 => [s]
  | n + 1 => s :: dateRange (nextDay s) n

/-- Credit of one day (source lines 1220-1228): holidays 0, Monday-Friday
1, Saturday 1/2, Sunday 0. -/
def dayCredit (puentes : List Pdate) (d : Pdate) : ℚ :=
  if d ∈ puentes then 0
  else if weekday d ≤ 4 then 1
  else if weekday d = 5 then 1 / 2
  else 0

/-- The loop of `workable_equiv_between` (lines 1215-1228): walks the
days, extending the holiday set with a day's year when it differs from
the start year, and sums the day credits. -/
def workGo (sy : Nat) : List Pdate → List Pdate → ℚ
  | _, [] => 0
  | p, d :: rest =>
    let p2 := if d.year ≠ sy then p ++ mexico_puentes d.year else p
    dayCredit p2 d + workGo sy p2 rest

/-- `workable_equiv_between` (source lines 1209-1229). -/
def workable_equiv_between (s e : Pdate) : ℚ :=
  if toOrdinal e < toOrdinal s then 0
  else workGo s.year (mexico_puentes s.year) (dateRange s (toOrdinal e - toOrdinal s))

/-! ## Spec-side definitions

Definitions written from the words of the specification, to be compared
with the definitions above, which were translated from the source. -/

/-- `k` occurs as a contiguous substring of `l`. -/
def containsSub (k l : PyStr) : Bool :=
  (List.range (l.length + 1)).any (fun i => k.isPrefixOf (l.drop i))

/-- Modelled from the spec's words (§4.3 / claim C7): classify as
in-transit when one of the four key phrases is *contained* in the
normalized status (substring containment, tolerating trailing
qualifiers), or the status is ENTREGADO with a blank linked sale
amount. -/
def claimed_in_transit (estatus : PyStr) (venta : Option PyStr) : Bool :=
  ([pstr "EN ENTREGA", pstr "EN PREPARACION", pstr "SOLICITADO", pstr "BACK OFFICE"].any
    (fun k => containsSub k (est_norm estatus))) ||
  (est_norm estatus == pstr "ENTREGADO" && venta_vacia venta)

/-- Modelled from the words of claim C9: same as `normalize_folio_key`
except that the decimal-point rule asks only for an all-zero fractional
part, with no condition on the prefix before the point. -/
def claimed_folio_key : Option PyStr → PyStr
  | none => []
  | some x =>
    let s := pyStrip x
    if s.isEmpty || pyLower s == pstr "nan" || pyLower s == pstr "none" then []
    else if (pstr ".0").isSuffixOf s && pyIsDigits (s.take (s.length - 2)) then
      s.take (s.length - 2)
    else if s.contains 46 &&
        (s.drop ((s.takeWhile (fun c => c != 46)).length + 1)).all (fun c => c == 48) then
      s.takeWhile (fun c => c != 46)
    else s

/-- The claim C9 rule list amended as the code forces: the decimal-point
rule also requires the part before the point to be all digits (and the
all-zero test is Python's `right.strip("0") == ""`). -/
def claimed_folio_key_amended : Option PyStr → PyStr
  | none => []
  | some x =>
    let s := pyStrip x
    if s.isEmpty || pyLower s == pstr "nan" || pyLower s == pstr "none" then []
    else if (pstr ".0").isSuffixOf s && pyIsDigits (s.take (s.length - 2)) then
      s.take (s.length - 2)
    else if s.contains 46 && pyIsDigits (s.takeWhile (fun c => c != 46)) &&
        (stripZeros (s.drop ((s.takeWhile (fun c => c != 46)).length + 1))).isEmpty then
      s.takeWhile (fun c => c != 46)
    else s

/-- Modelled from the spec's decision table (§4.5 / claim C2): the rules
in order, each a guard and a quota value. -/
def quota_rules (ten : Nat) (prom : ℚ) : List (Bool × ℤ) :=
  [(decide (ten < 41), 6),
   (decide (7 ≤ prom), ⌊prom⌋ + 1),
   (decide (6 ≤ prom), ⌊prom⌋ + 2),
   (true, 7)]

/-- The quota of the spec's decision table: the value of the first rule
whose guard holds. -/
def quota_spec (ten : Nat) (prom : ℚ) : ℤ :=
  (((quota_rules ten prom).find? (fun r => r.1)).map (fun r => r.2)).getD 0

/-- What survives of one code point in `normalize_name`: its NFKD
decomposition with the combining marks removed. -/
def block (c : Nat) : PyStr :=
  (nfkdChar c).filter (fun d => !(isCombiningChar d))

/-- A code point on which `normalize_name` is self-stable: whitespace
(it is collapsed into separators before NFKD runs), or a character whose
upper-case form decomposes — after dropping combining marks — to a
*nonempty* string of non-whitespace, case-stable ASCII characters.
This class contains every ASCII character and the modelled accented
Latin-1 letters; it excludes U+00A8 (which emits a space) and bare
combining marks (whose word would vanish and leave doubled
separators). -/
def stable_char (c : Nat) : Bool :=
  pyIsSpace c ||
  (!(block (upChar c)).isEmpty &&
    (block (upChar c)).all
      (fun d => decide (d < 128) && !(pyIsSpace d) && (upChar d == d)))


/-! ## Theorems -/

/-- C2: for every active executive, the assigned monthly quota follows
the spec's decision table with the rules evaluated in order and the
first matching rule winning: 6 when tenure is under 41 days, otherwise
`⌊prom⌋ + 1` when `prom ≥ 7`, otherwise `⌊prom⌋ + 2` when `prom ≥ 6`,
otherwise 7; in particular tenure 100 and average 6.2 yield quota 8. -/
theorem C2_quota_policy :
    (∀ (ten : Nat) (prom : ℚ), meta_mes ten prom = quota_spec ten prom) ∧
    meta_mes 100 (31 / 5) = 8 := by
  constructor
  · intro ten prom
    by_cases h1 : ten < 41
    · simp [meta_mes, quota_spec, quota_rules, List.find?, h1]
    · by_cases h2 : 7 ≤ prom
      · simp [meta_mes, quota_spec, quota_rules, List.find?, h1, h2]
      · by_cases h3 : 6 ≤ prom
        · simp [meta_mes, quota_spec, quota_rules, List.find?, h1, h2, h3]
        · simp [meta_mes, quota_spec, quota_rules, List.find?, h1, h2, h3]
  · norm_num [meta_mes]

/-- C4: an inactive ("BAJA") executive's quota is 0 regardless of tenure
and rolling average; BAJA rows contribute 0 to every quota total; and the
metas table keeps only ACTIVO rows. -/
theorem C4_baja_quota_zero :
    (∀ (ten : Nat) (prom : ℚ), meta_simulacion (pstr "BAJA") ten prom = 0) ∧
    (∀ rows : List (PyStr × Nat × ℚ),
      (rows.map (fun r => meta_simulacion r.1 r.2.1 r.2.2)).sum =
        ((rows.filter (fun r => !(r.1 == pstr "BAJA"))).map
          (fun r => meta_simulacion r.1 r.2.1 r.2.2)).sum) ∧
    (∀ rows : List MetaRow,
      ((metas_active_filter rows).all (fun r => r.status == pstr "ACTIVO")) = true) := by
  refine ⟨fun ten prom => by simp [meta_simulacion], ?_, ?_⟩
  · intro rows
    induction rows with
    | nil => rfl
    | cons r rs ih =>
      by_cases h : r.1 = pstr "BAJA"
      · have h0 : meta_simulacion r.1 r.2.1 r.2.2 = 0 := by simp [meta_simulacion, h]
        simp [List.filter_cons, h, h0, ih]
        simp [meta_simulacion]
      · simp [List.filter_cons, h, ih]
  · intro rows
    simp only [metas_active_filter, List.all_eq_true, List.mem_filter]
    exact fun r hr => hr.2

/-- C8: a delivery record with the cancellation-error status is excluded
entirely from the per-executive split: adding such a record changes
neither `hechas_mes` nor `transito_mes` nor `total_mes`, for any seller
key. -/
theorem C8_canc_error_excluded :
    ∀ (recs : List ProgRecord) (r : ProgRecord) (v : PyStr),
      is_canc r.estatus = true →
      hechas_mes (r :: recs) v = hechas_mes recs v ∧
      transito_mes (r :: recs) v = transito_mes recs v ∧
      total_mes (r :: recs) v = total_mes recs v := by
  intro recs r v h
  have hp : prog_rows_for (r :: recs) v = prog_rows_for recs v := by
    simp [prog_rows_for, List.filter_cons, h]
  exact ⟨by simp [hechas_mes, hp], by simp [transito_mes, hp],
    by simp [total_mes, hechas_mes, transito_mes, hp]⟩

/-- C8 witness: a concrete `Canc Error` record for seller `A` is counted
in none of the three columns. -/
theorem C8_canc_error_excluded_witness :
    hechas_mes [⟨pstr "A", pstr "Canc Error", none⟩] (pstr "A") = hechas_mes [] (pstr "A") ∧
    transito_mes [⟨pstr "A", pstr "Canc Error", none⟩] (pstr "A") = transito_mes [] (pstr "A") ∧
    total_mes [⟨pstr "A", pstr "Canc Error", none⟩] (pstr "A") = total_mes [] (pstr "A") :=
  C8_canc_error_excluded [] ⟨pstr "A", pstr "Canc Error", none⟩ (pstr "A") (by decide)

/-- C7 counterexample: the delivery status `En entrega urgente` contains
the key phrase `EN ENTREGA` with a trailing qualifier, so the claim
classifies it in-transit, but the split's classifier matches the four
statuses exactly and classifies the record (non-blank sale amount, not a
cancellation error) as completed. -/
theorem C7_counterexample :
    claimed_in_transit (pstr "En entrega urgente") (some (pstr "100")) = true ∧
    is_transito (pstr "En entrega urgente") (some (pstr "100")) = false ∧
    is_canc (pstr "En entrega urgente") = false := by decide

/-- C7 amended: a delivery record (not excluded as cancellation-error)
is classified in-transit iff its normalized status is *exactly* one of
EN ENTREGA, EN PREPARACION, SOLICITADO, BACK OFFICE, or it is ENTREGADO
with a blank linked sale amount (no substring containment). -/
theorem C7_in_transit_amended :
    ∀ (estatus : PyStr) (venta : Option PyStr),
      is_transito estatus venta = true ↔
        (est_norm estatus = pstr "EN ENTREGA" ∨
         est_norm estatus = pstr "EN PREPARACION" ∨
         est_norm estatus = pstr "SOLICITADO" ∨
         est_norm estatus = pstr "BACK OFFICE" ∨
         (est_norm estatus = pstr "ENTREGADO" ∧ venta_vacia venta = true)) := by
  intro estatus venta
  simp [is_transito, or_assoc]

/-- C9 counterexample: `abc.00` contains a decimal point with an
all-zero fractional part, so the claim's rule drops the point and the
fraction, yielding `abc`; the code additionally requires the part before
the point to be all digits and returns `abc.00` unchanged. -/
theorem C9_counterexample :
    normalize_folio_key (some (pstr "abc.00")) = pstr "abc.00" ∧
    claimed_folio_key (some (pstr "abc.00")) = pstr "abc" := by decide

/-- C9 amended: `normalize_folio_key` maps null, empty and the trimmed
case-insensitive placeholders `nan`/`none` to the empty string; otherwise
it trims and drops an `.0` suffix with an all-digit prefix; otherwise it
drops a decimal point with an all-zero fractional part *provided the
integer part is all digits*; otherwise the trimmed string is returned
unchanged.  The examples of the claim hold. -/
theorem C9_folio_key_amended :
    (∀ x : Option PyStr, normalize_folio_key x = claimed_folio_key_amended x) ∧
    normalize_folio_key (some (pstr "4412.0")) = pstr "4412" ∧
    normalize_folio_key (some (pstr "4412")) = pstr "4412" ∧
    normalize_folio_key (some (pstr "abc")) = pstr "abc" ∧
    normalize_folio_key none = pstr "" ∧
    normalize_folio_key (some (pstr "nan")) = pstr "" ∧
    normalize_folio_key (some (pstr "")) = pstr "" := by
  refine ⟨?_, by decide, by decide, by decide, by decide, by decide, by decide⟩
  intro x
  match x with
  | none => rfl
  | some s =>
    simp only [normalize_folio_key, claimed_folio_key_amended]
    split_ifs <;> simp_all [Bool.and_assoc]

/-- C5: with a nonnegative remaining business-day equivalent, a value
strictly between 0 and 1 is first replaced by 1; the required daily
rate from today is `max(gap, 0)` divided by the adjusted value, and when
the adjusted value is 0 the rate is `max(gap, 0)` itself.  The same
function is applied to the executive gap and to each rollup's summed
gap, so the property holds at every level. -/
theorem C5_rate_from_today :
    ∀ (gap : ℤ) (rem : ℚ), 0 ≤ rem →
      (0 < rem → rem < 1 → remaining_for_rate rem = 1) ∧
      (remaining_for_rate rem = 0 →
        ventas_diarias_necesarias_desde_hoy gap (remaining_for_rate rem) = max (gap : ℚ) 0) ∧
      (remaining_for_rate rem ≠ 0 →
        ventas_diarias_necesarias_desde_hoy gap (remaining_for_rate rem) =
          max (gap : ℚ) 0 / remaining_for_rate rem) := by
  intro gap rem hrem
  have hnn : 0 ≤ remaining_for_rate rem := by
    unfold remaining_for_rate
    split_ifs with h
    · norm_num
    · exact hrem
  refine ⟨fun h1 h2 => by simp [remaining_for_rate, h1, h2], fun h0 => ?_, fun hne => ?_⟩
  · rw [ventas_diarias_necesarias_desde_hoy, if_neg (by rw [h0]; exact lt_irrefl 0)]
  · rw [ventas_diarias_necesarias_desde_hoy, if_pos (lt_of_le_of_ne hnn (Ne.symm hne))]

/-- C5 witness: a half-Saturday remainder is promoted to a full day and
a gap of 3 then needs 3 sales per day. -/
theorem C5_rate_from_today_witness :
    remaining_for_rate (1 / 2) = 1 ∧
    ventas_diarias_necesarias_desde_hoy 3 (remaining_for_rate (1 / 2)) =
      max ((3 : ℤ) : ℚ) 0 / remaining_for_rate (1 / 2) :=
  ⟨(C5_rate_from_today 3 (1 / 2) (by norm_num)).1 (by norm_num) (by norm_num),
   (C5_rate_from_today 3 (1 / 2) (by norm_num)).2.2 (by norm_num [remaining_for_rate])⟩

/-- Each sanity row satisfies the gap identity by construction. -/
theorem sanityRowOf_identity (i : SanityInput) :
    (sanityRowOf i).gap + (((sanityRowOf i).hechas : ℤ) + ((sanityRowOf i).transito : ℤ)) =
      ((sanityRowOf i).meta : ℤ) := by
  rcases i with ⟨meta, _ | ⟨recs, v⟩⟩ <;>
    simp [sanityRowOf, mkSanityRow, prog_row, total_mes]

/-- Summed over any sub-list of rows, gap + (hechas + transito) = meta. -/
theorem sanity_sum_identity (l : List SanityInput) :
    (l.map (fun i => (sanityRowOf i).gap)).sum +
      ((l.map (fun i => ((sanityRowOf i).hechas : ℤ))).sum +
       (l.map (fun i => ((sanityRowOf i).transito : ℤ))).sum) =
      (l.map (fun i => ((sanityRowOf i).meta : ℤ))).sum := by
  induction l with
  | nil => simp
  | cons i l ih =>
    simp only [List.map_cons, List.sum_cons]
    have := sanityRowOf_identity i
    linarith

/-- C1: every executive row of the sanity-check table satisfies
`gap + (completed + in_transit) = quota`, and for every rollup (any
sub-selection of rows: team, centro or global) the summed gap, counts and
quota satisfy the same identity, because each group's columns are the
sums of its members' columns. -/
theorem C1_gap_identity :
    ∀ (inputs : List SanityInput) (p : SanityInput → Bool),
      ((inputs.map sanityRowOf).all
        (fun r => decide (r.gap + ((r.hechas : ℤ) + (r.transito : ℤ)) = (r.meta : ℤ)))) = true ∧
      ((inputs.filter p).map (fun i => (sanityRowOf i).gap)).sum +
        (((inputs.filter p).map (fun i => ((sanityRowOf i).hechas : ℤ))).sum +
         ((inputs.filter p).map (fun i => ((sanityRowOf i).transito : ℤ))).sum) =
        ((inputs.filter p).map (fun i => ((sanityRowOf i).meta : ℤ))).sum := by
  intro inputs p
  constructor
  · simp only [List.all_eq_true, List.mem_map, decide_eq_true_eq]
    rintro r ⟨i, _, rfl⟩
    exact sanityRowOf_identity i
  · exact sanity_sum_identity (inputs.filter p)

/-- Dropping up to the first positive entry is dropping the leading run
of zeros. -/
theorem drop_findIdx_pos_eq_dropWhile (l : List Nat) :
    l.drop (l.findIdx (fun v => 0 < v)) = l.dropWhile (fun v => v == 0) := by
  induction l with
  | nil => rfl
  | cons c cs ih =>
    by_cases h : 0 < c
    · have hc : ¬(c = 0) := by omega
      simp [List.findIdx_cons, List.dropWhile_cons, h, hc]
    · have hc : c = 0 := by omega
      simp [List.findIdx_cons, List.dropWhile_cons, h, hc, ih]

/-- C3: over a zero-filled month window, an all-zero window gives
rolling average 0 (with the no-nonzero-months flag false); otherwise the
average is the sum of counts from the first nonzero index to the end
divided by the number of months from that index to the end inclusive —
equivalently, the sum and length of the window after removing only the
leading run of zeros.  The window `[0, 0, 5, 3]` gives `(5+3)/2 = 4`. -/
theorem C3_rolling_average :
    (∀ vals : List Nat,
      (has_nz vals = false → prom_ult_3m vals = 0) ∧
      (has_nz vals = true →
        prom_ult_3m vals =
          ((vals.dropWhile (fun v => v == 0)).sum : ℚ) /
            ((vals.dropWhile (fun v => v == 0)).length : ℚ))) ∧
    prom_ult_3m [0, 0, 5, 3] = 4 := by
  constructor
  · intro vals
    refine ⟨fun h => by simp [prom_ult_3m, h], fun h => ?_⟩
    have hdrop := drop_findIdx_pos_eq_dropWhile vals
    have hlen : (vals.dropWhile (fun v => v == 0)).length =
        vals.length - vals.findIdx (fun v => 0 < v) := by
      rw [← hdrop, List.length_drop]
    rw [prom_ult_3m, if_pos h, first_i, if_pos h, hdrop, hlen]
  · have h1 : has_nz [0, 0, 5, 3] = true := by decide
    have h2 : first_i [0, 0, 5, 3] = 2 := by decide
    rw [prom_ult_3m, if_pos h1, h2]
    norm_num

/-- C3 witness: the theorem instantiated at the nonzero window
`[0, 0, 5, 3]` and the all-zero window `[0, 0, 0]`. -/
theorem C3_rolling_average_witness :
    prom_ult_3m [0, 0, 5, 3] =
      ((([0, 0, 5, 3] : List Nat).dropWhile (fun v => v == 0)).sum : ℚ) /
        ((([0, 0, 5, 3] : List Nat).dropWhile (fun v => v == 0)).length : ℚ) ∧
    prom_ult_3m [0, 0, 0] = 0 :=
  ⟨(C3_rolling_average.1 [0, 0, 5, 3]).2 (by decide),
   (C3_rolling_average.1 [0, 0, 0]).1 (by decide)⟩

/-- `_nth_weekday_of_month` with target weekday 0 lands on a Monday in
the `n`-th week of the month. -/
theorem nth_monday_spec (y m n : Nat) (hn : 1 ≤ n) :
    weekday (nth_weekday_of_month y m 0 n) = 0 ∧
    7 * n - 6 ≤ (nth_weekday_of_month y m 0 n).day ∧
    (nth_weekday_of_month y m 0 n).day ≤ 7 * n := by
  have hB : ∀ D : Nat, toOrdinal ⟨y, m, D⟩ =
      365 * (y - 1) + ((y - 1) / 4 - (y - 1) / 100) + (y - 1) / 400 +
        daysBeforeMonth y m + D := fun D => rfl
  unfold nth_weekday_of_month weekday
  simp only [hB]
  omega

/-- C6: for every date, the business-day equivalent of the single-day
range `[d, d]` is 0 on a holiday (holidays override Saturday's half
credit), 1 on a Monday-Friday non-holiday, 1/2 on a Saturday
non-holiday and 0 on a Sunday; and the holiday set of year `y` is
exactly Jan 1, the first Monday of February, the third Monday of March,
May 1, Sep 16, the third Monday of November and Dec 25 (the computed
floating holidays being Mondays in the first resp. third week). -/
theorem C6_single_day_credit :
    ∀ y m d : Nat,
      (workable_equiv_between ⟨y, m, d⟩ ⟨y, m, d⟩ =
        if (⟨y, m, d⟩ : Pdate) ∈ mexico_puentes y then 0
        else if weekday ⟨y, m, d⟩ ≤ 4 then 1
        else if weekday ⟨y, m, d⟩ = 5 then 1 / 2
        else 0) ∧
      ((⟨y, m, d⟩ : Pdate) ∈ mexico_puentes y ↔
        ((⟨y, m, d⟩ : Pdate) = ⟨y, 1, 1⟩ ∨
         (⟨y, m, d⟩ : Pdate) = nth_weekday_of_month y 2 0 1 ∨
         (⟨y, m, d⟩ : Pdate) = nth_weekday_of_month y 3 0 3 ∨
         (⟨y, m, d⟩ : Pdate) = ⟨y, 5, 1⟩ ∨
         (⟨y, m, d⟩ : Pdate) = ⟨y, 9, 16⟩ ∨
         (⟨y, m, d⟩ : Pdate) = nth_weekday_of_month y 11 0 3 ∨
         (⟨y, m, d⟩ : Pdate) = ⟨y, 12, 25⟩)) ∧
      (weekday (nth_weekday_of_month y 2 0 1) = 0 ∧
        (nth_weekday_of_month y 2 0 1).month = 2 ∧
        1 ≤ (nth_weekday_of_month y 2 0 1).day ∧
        (nth_weekday_of_month y 2 0 1).day ≤ 7) ∧
      (weekday (nth_weekday_of_month y 3 0 3) = 0 ∧
        (nth_weekday_of_month y 3 0 3).month = 3 ∧
        15 ≤ (nth_weekday_of_month y 3 0 3).day ∧
        (nth_weekday_of_month y 3 0 3).day ≤ 21) ∧
      (weekday (nth_weekday_of_month y 11 0 3) = 0 ∧
        (nth_weekday_of_month y 11 0 3).month = 11 ∧
        15 ≤ (nth_weekday_of_month y 11 0 3).day ∧
        (nth_weekday_of_month y 11 0 3).day ≤ 21) := by
  intro y m d
  refine ⟨?_, ?_, ?_, ?_, ?_⟩
  · rw [workable_equiv_between, if_neg (lt_irrefl _), Nat.sub_self]
    show workGo y (mexico_puentes y) [⟨y, m, d⟩] = _
    simp [workGo, dayCredit]
  · simp [mexico_puentes]
  · have h := nth_monday_spec y 2 1 (by norm_num)
    exact ⟨h.1, rfl, by omega, by omega⟩
  · have h := nth_monday_spec y 3 3 (by norm_num)
    exact ⟨h.1, rfl, by omega, by omega⟩
  · have h := nth_monday_spec y 11 3 (by norm_num)
    exact ⟨h.1, rfl, by omega, by omega⟩

/-- C10 counterexample: `normalize_name` is not idempotent.  On U+00A8
(the diaeresis sign) the NFKD step runs *after* the whitespace collapse
and emits a space (U+00A8 decomposes to SPACE + COMBINING DIAERESIS), so
the first pass returns `" "` while a second pass strips it to `""`. -/
theorem C10_counterexample :
    normalize_name (normalize_name (pstr "¨")) ≠ normalize_name (pstr "¨") := by decide

/-- Upper-casing a code point twice is upper-casing it once. -/
theorem upChar_idem (c : Nat) : upChar (upChar c) = upChar c := by
  unfold upChar
  split_ifs <;> omega

/-- Upper-casing keeps ASCII code points in the ASCII range. -/
theorem upChar_lt_128 {c : Nat} (h : c < 128) : upChar c < 128 := by
  unfold upChar
  split_ifs <;> omega

/-- ASCII code points are NFKD-stable in the modelled table. -/
theorem nfkdChar_ascii {c : Nat} (h : c < 128) : nfkdChar c = [c] := by
  have hs : c ≠ 168 ∧ c ≠ 193 ∧ c ≠ 201 ∧ c ≠ 205 ∧ c ≠ 211 ∧ c ≠ 218 ∧ c ≠ 209 ∧
      c ≠ 220 ∧ c ≠ 225 ∧ c ≠ 233 ∧ c ≠ 237 ∧ c ≠ 243 ∧ c ≠ 250 ∧ c ≠ 241 ∧ c ≠ 252 := by
    omega
  obtain ⟨h1, h2, h3, h4, h5, h6, h7, h8, h9, h10, h11, h12, h13, h14, h15⟩ := hs
  simp [nfkdChar, h1, h2, h3, h4, h5, h6, h7, h8, h9, h10, h11, h12, h13, h14, h15]

/-- ASCII code points are not combining marks. -/
theorem isCombiningChar_ascii {c : Nat} (h : c < 128) : isCombiningChar c = false := by
  unfold isCombiningChar
  have e : ∀ k : Nat, c ≠ k → (c == k) = false := fun k hk => beq_eq_false_iff_ne.mpr hk
  rw [e 768 (by omega), e 769 (by omega), e 771 (by omega), e 776 (by omega)]
  rfl

/-- NFKD is the identity on an ASCII string. -/
theorem flatMap_nfkd_ascii (l : PyStr) (h : ∀ c ∈ l, c < 128) :
    l.flatMap nfkdChar = l := by
  induction l with
  | nil => rfl
  | cons c cs ih =>
    rw [List.flatMap_cons, nfkdChar_ascii (h c (by simp)),
      ih (fun a ha => h a (by simp [ha]))]
    rfl

/-- The combining-mark filter is the identity on an ASCII string. -/
theorem filter_comb_ascii (l : PyStr) (h : ∀ c ∈ l, c < 128) :
    l.filter (fun c => !(isCombiningChar c)) = l := by
  rw [List.filter_eq_self]
  intro a ha
  simp [isCombiningChar_ascii (h a ha)]

/-- Characters survive `pyStrip`. -/
theorem mem_pyStrip {c : Nat} {s : PyStr} (h : c ∈ pyStrip s) : c ∈ s := by
  unfold pyStrip at h
  rw [List.mem_reverse] at h
  have h1 := (List.dropWhile_sublist (l := (s.dropWhile pyIsSpace).reverse)
    (p := pyIsSpace)).mem h
  rw [List.mem_reverse] at h1
  exact (List.dropWhile_sublist (l := s) (p := pyIsSpace)).mem h1

/-- The words produced by `pyWordsAux` are nonempty, whitespace-free,
and drawn from the accumulator and the remaining input. -/
theorem pyWordsAux_good :
    ∀ (l acc : PyStr), (∀ c ∈ acc, pyIsSpace c = false) →
      ∀ w ∈ pyWordsAux acc l,
        w ≠ [] ∧ ∀ c ∈ w, pyIsSpace c = false ∧ (c ∈ acc ∨ c ∈ l) := by
  intro l
  induction l with
  | nil =>
    intro acc hacc w hw
    rw [pyWordsAux] at hw
    by_cases h : acc.isEmpty
    · simp [h] at hw
    · simp only [h, if_neg, Bool.false_eq_true, if_false, List.mem_singleton] at hw
      subst hw
      refine ⟨by simpa [List.reverse_eq_nil_iff] using h, fun c hc => ?_⟩
      rw [List.mem_reverse] at hc
      exact ⟨hacc c hc, Or.inl hc⟩
  | cons a cs ih =>
    intro acc hacc w hw
    rw [pyWordsAux] at hw
    by_cases hsp : pyIsSpace a
    · rw [if_pos hsp] at hw
      by_cases hacc0 : acc.isEmpty
      · rw [if_pos hacc0] at hw
        have := ih [] (by simp) w hw
        exact ⟨this.1, fun c hc => ⟨(this.2 c hc).1,
          Or.elim ((this.2 c hc).2) (by simp) (fun h => Or.inr (by simp [h]))⟩⟩
      · rw [if_neg hacc0] at hw
        rcases List.mem_cons.1 hw with hw1 | hw2
        · subst hw1
          refine ⟨by simpa [List.reverse_eq_nil_iff] using hacc0, fun c hc => ?_⟩
          rw [List.mem_reverse] at hc
          exact ⟨hacc c hc, Or.inl hc⟩
        · have := ih [] (by simp) w hw2
          exact ⟨this.1, fun c hc => ⟨(this.2 c hc).1,
            Or.elim ((this.2 c hc).2) (by simp) (fun h => Or.inr (by simp [h]))⟩⟩
    · rw [if_neg hsp] at hw
      have hacc2 : ∀ c ∈ a :: acc, pyIsSpace c = false := by
        intro c hc
        rcases List.mem_cons.1 hc with rfl | hc2
        · exact Bool.not_eq_true _ ▸ (by simpa using hsp)
        · exact hacc c hc2
      have := ih (a :: acc) hacc2 w hw
      refine ⟨this.1, fun c hc => ⟨(this.2 c hc).1, ?_⟩⟩
      rcases (this.2 c hc).2 with hc1 | hc2
      · rcases List.mem_cons.1 hc1 with rfl | hc3
        · exact Or.inr (by simp)
        · exact Or.inl hc3
      · exact Or.inr (by simp [hc2])

/-- `pyWordsAux` absorbs a whitespace-free prefix into the accumulator. -/
theorem pyWordsAux_append (w : PyStr) :
    ∀ (acc cs : PyStr), (∀ c ∈ w, pyIsSpace c = false) →
      pyWordsAux acc (w ++ cs) = pyWordsAux (w.reverse ++ acc) cs := by
  induction w with
  | nil => intro acc cs _; rfl
  | cons a w' ih =>
    intro acc cs h
    have ha : pyIsSpace a = false := h a (by simp)
    rw [List.cons_append, pyWordsAux, if_neg (by simp [ha]), ih (a :: acc) cs
      (fun c hc => h c (by simp [hc]))]
    simp

/-- The join of at least two words starts with the first word. -/
theorem spaceJoin_cons_cons (w w2 : PyStr) (W : List PyStr) :
    spaceJoin (w :: w2 :: W) = w ++ 32 :: spaceJoin (w2 :: W) := rfl

/-- A nonempty word list with nonempty words joins to a nonempty
string. -/
theorem spaceJoin_ne_nil (w : PyStr) (W : List PyStr) (hw : w ≠ []) :
    spaceJoin (w :: W) ≠ [] := by
  cases W with
  | nil => simpa [spaceJoin] using hw
  | cons w2 W' =>
    rw [spaceJoin_cons_cons]
    rcases w with _ | ⟨c, w0⟩
    · exact absurd rfl hw
    · simp

/-- Splitting the space-joined words recovers them, when every word is
nonempty and whitespace-free. -/
theorem pyWords_spaceJoin :
    ∀ W : List PyStr, (∀ w ∈ W, w ≠ [] ∧ ∀ c ∈ w, pyIsSpace c = false) →
      pyWords (spaceJoin W) = W := by
  intro W
  induction W with
  | nil => intro _; rfl
  | cons w W' ih =>
    intro hW
    have hw := hW w (by simp)
    cases W' with
    | nil =>
      show pyWordsAux [] (spaceJoin [w]) = [w]
      rw [spaceJoin]
      have := pyWordsAux_append w [] [] hw.2
      rw [List.append_nil] at this
      rw [this, pyWordsAux]
      rw [if_neg (by simpa [List.isEmpty_iff, List.reverse_eq_nil_iff,
        List.append_nil] using hw.1)]
      simp
    | cons w2 W'' =>
      show pyWordsAux [] (spaceJoin (w :: w2 :: W'')) = w :: w2 :: W''
      rw [spaceJoin_cons_cons]
      rw [pyWordsAux_append w [] (32 :: spaceJoin (w2 :: W'')) hw.2]
      rw [pyWordsAux, if_pos (by rfl)]
      rw [if_neg (by simpa [List.isEmpty_iff, List.reverse_eq_nil_iff,
        List.append_nil] using hw.1)]
      have ihres := ih (fun u hu => hW u (by simp [hu]))
      rw [show pyWordsAux [] (spaceJoin (w2 :: W'')) = pyWords (spaceJoin (w2 :: W'')) from rfl,
        ihres]
      simp

/-- The last character of a good join is not whitespace. -/
theorem spaceJoin_getLast :
    ∀ W : List PyStr, (∀ w ∈ W, w ≠ [] ∧ ∀ c ∈ w, pyIsSpace c = false) → W ≠ [] →
      ∃ c, (spaceJoin W).getLast? = some c ∧ pyIsSpace c = false := by
  intro W
  induction W with
  | nil => intro _ h; exact absurd rfl h
  | cons w W' ih =>
    intro hW _
    have hw := hW w (by simp)
    cases W' with
    | nil =>
      refine ⟨(w.getLast hw.1), ?_, hw.2 _ (List.getLast_mem hw.1)⟩
      show w.getLast? = _
      exact List.getLast?_eq_getLast w hw.1
    | cons w2 W'' =>
      obtain ⟨c, hcl, hcns⟩ := ih (fun u hu => hW u (by simp [hu])) (by simp)
      refine ⟨c, ?_, hcns⟩
      have hne : spaceJoin (w2 :: W'') ≠ [] :=
        spaceJoin_ne_nil w2 W'' (hW w2 (by simp)).1
      rw [spaceJoin_cons_cons, List.getLast?_append_cons]
      rw [show (32 :: spaceJoin (w2 :: W'')) = [32] ++ spaceJoin (w2 :: W'') from rfl,
        List.getLast?_append_of_ne_nil _ hne]
      exact hcl

/-- Stripping a good join changes nothing. -/
theorem pyStrip_spaceJoin (W : List PyStr)
    (hW : ∀ w ∈ W, w ≠ [] ∧ ∀ c ∈ w, pyIsSpace c = false) :
    pyStrip (spaceJoin W) = spaceJoin W := by
  cases W with
  | nil => rfl
  | cons w W' =>
    have hw := hW w (by simp)
    have hfront : (spaceJoin (w :: W')).dropWhile pyIsSpace = spaceJoin (w :: W') := by
      rcases hwc : w with _ | ⟨c, w0⟩
      · exact absurd hwc hw.1
      · have hc : pyIsSpace c = false := hw.2 c (by simp [hwc])
        cases W' with
        | nil => simp [spaceJoin, List.dropWhile_cons, hc]
        | cons w2 W'' =>
          rw [spaceJoin_cons_cons, List.cons_append, List.dropWhile_cons, hc]
          simp
    obtain ⟨c, hcl, hcns⟩ := spaceJoin_getLast (w :: W') hW (by simp)
    have hrev : (spaceJoin (w :: W')).reverse.head? = some c := by
      rw [List.head?_reverse]; exact hcl
    have hback : (spaceJoin (w :: W')).reverse.dropWhile pyIsSpace =
        (spaceJoin (w :: W')).reverse := by
      rcases hrl : (spaceJoin (w :: W')).reverse with _ | ⟨c', t⟩
      · rfl
      · rw [hrl] at hrev
        have : c' = c := by simpa using hrev
        subst this
        rw [List.dropWhile_cons, hcns]
        simp
    unfold pyStrip
    rw [hfront, hback, List.reverse_reverse]

/-- Characters of a join are spaces or characters of the words. -/
theorem mem_spaceJoin {c : Nat} :
    ∀ W : List PyStr, c ∈ spaceJoin W → c = 32 ∨ ∃ w ∈ W, c ∈ w := by
  intro W
  induction W with
  | nil => intro h; cases h
  | cons w W' ih =>
    intro h
    cases W' with
    | nil => exact Or.inr ⟨w, by simp, by simpa [spaceJoin] using h⟩
    | cons w2 W'' =>
      rw [spaceJoin_cons_cons] at h
      rcases List.mem_append.1 h with h1 | h2
      · exact Or.inr ⟨w, by simp, h1⟩
      · rcases List.mem_cons.1 h2 with rfl | h3
        · exact Or.inl rfl
        · rcases ih h3 with h4 | ⟨u, hu, hcu⟩
          · exact Or.inl h4
          · exact Or.inr ⟨u, by simp [hu], hcu⟩

/-- A map that fixes every member fixes the list. -/
theorem map_eq_self_of_mem {f : Nat → Nat} {l : PyStr} (h : ∀ c ∈ l, f c = c) :
    l.map f = l := by
  induction l with
  | nil => rfl
  | cons c cs ih =>
    rw [List.map_cons, h c (by simp), ih (fun a ha => h a (by simp [ha]))]

/-- Membership form of `pyIsSpace`. -/
theorem pyIsSpace_eq_true_iff {d : Nat} : pyIsSpace d = true ↔
    (d = 32 ∨ d = 9 ∨ d = 10 ∨ d = 13 ∨ d = 11 ∨ d = 12 ∨
     d = 28 ∨ d = 29 ∨ d = 30 ∨ d = 31 ∨ d = 133 ∨ d = 160) := by
  simp [pyIsSpace, or_assoc]

/-- Whitespace code points are fixed by upper-casing. -/
theorem upChar_of_space {a : Nat} (h : pyIsSpace a = true) : upChar a = a := by
  rw [pyIsSpace_eq_true_iff] at h
  unfold upChar
  split_ifs <;> omega

/-- ASCII code points keep their single-character block. -/
theorem block_ascii {d : Nat} (h : d < 128) : block d = [d] := by
  rw [block, nfkdChar_ascii h]
  simp [isCombiningChar_ascii h]

/-- The combining filter of an NFKD image computes the blocks. -/
theorem filter_flatMap_blocks (l : PyStr) :
    (l.flatMap nfkdChar).filter (fun d => !(isCombiningChar d)) = l.flatMap block := by
  induction l with
  | nil => rfl
  | cons c cs ih =>
    rw [List.flatMap_cons, List.filter_append, ih, List.flatMap_cons]
    rfl

/-- Blocks distribute over the space-join (the separator's block is
itself). -/
theorem flatMap_block_spaceJoin :
    ∀ W : List PyStr, (spaceJoin W).flatMap block =
      spaceJoin (W.map (fun w => w.flatMap block)) := by
  intro W
  induction W with
  | nil => rfl
  | cons w W' ih =>
    cases W' with
    | nil => rfl
    | cons w2 W'' =>
      rw [spaceJoin_cons_cons, List.flatMap_append, List.flatMap_cons, ih,
        show block 32 = [32] from rfl]
      simp only [List.map_cons]
      rw [spaceJoin_cons_cons]
      simp

/-- A word with nonempty blocks has a nonempty block image. -/
theorem flatMap_block_ne_nil {w : PyStr} (hw : w ≠ [])
    (h : ∀ c ∈ w, block c ≠ []) : w.flatMap block ≠ [] := by
  cases w with
  | nil => exact absurd rfl hw
  | cons c cs =>
    rw [List.flatMap_cons]
    intro hcontra
    exact h c (by simp) (List.append_eq_nil.1 hcontra).1

/-- Blocks are the identity on ASCII strings. -/
theorem flatMap_block_ascii (l : PyStr) (h : ∀ c ∈ l, c < 128) :
    l.flatMap block = l := by
  induction l with
  | nil => rfl
  | cons c cs ih =>
    rw [List.flatMap_cons, block_ascii (h c (by simp)),
      ih (fun a ha => h a (by simp [ha]))]
    rfl

/-- `normalize_name` fixes the join of the block images of a list of
nonempty words whose blocks are nonempty, non-whitespace, case-stable
and ASCII. -/
theorem normalize_name_fixes_blocks (W : List PyStr)
    (hWb : ∀ w ∈ W, w ≠ [] ∧ ∀ c ∈ w, block c ≠ [] ∧
      ∀ d ∈ block c, d < 128 ∧ pyIsSpace d = false ∧ upChar d = d) :
    normalize_name (spaceJoin (W.map (fun w => w.flatMap block))) =
      spaceJoin (W.map (fun w => w.flatMap block)) := by
  have hWgood : ∀ w' ∈ W.map (fun w => w.flatMap block),
      w' ≠ [] ∧ ∀ d ∈ w', pyIsSpace d = false := by
    intro w' hw'
    rcases List.mem_map.1 hw' with ⟨w, hw, rfl⟩
    refine ⟨flatMap_block_ne_nil (hWb w hw).1 (fun c hc => ((hWb w hw).2 c hc).1), ?_⟩
    intro d hd
    rcases List.mem_flatMap.1 hd with ⟨c, hc, hdc⟩
    exact (((hWb w hw).2 c hc).2 d hdc).2.1
  have hr : ∀ d ∈ spaceJoin (W.map (fun w => w.flatMap block)),
      d < 128 ∧ upChar d = d := by
    intro d hd
    rcases mem_spaceJoin _ hd with rfl | ⟨w', hw', hdw⟩
    · exact ⟨by norm_num, rfl⟩
    · rcases List.mem_map.1 hw' with ⟨w, hw, rfl⟩
      rcases List.mem_flatMap.1 hdw with ⟨c, hc, hdc⟩
      have hds := ((hWb w hw).2 c hc).2 d hdc
      exact ⟨hds.1, hds.2.2⟩
  have hstrip := pyStrip_spaceJoin _ hWgood
  have hupper : (spaceJoin (W.map (fun w => w.flatMap block))).map upChar =
      spaceJoin (W.map (fun w => w.flatMap block)) :=
    map_eq_self_of_mem (fun d hd => (hr d hd).2)
  have hwords := pyWords_spaceJoin _ hWgood
  show ((spaceJoin (pyWords ((pyStrip (spaceJoin (W.map
      (fun w => w.flatMap block)))).map upChar))).flatMap nfkdChar).filter
      (fun c => !(isCombiningChar c)) = _
  rw [hstrip, hupper, hwords, filter_flatMap_blocks]
  exact flatMap_block_ascii _ (fun d hd => (hr d hd).1)

/-- C10 amended: `normalize_name` is idempotent on every string of
stable characters, i.e. characters that are whitespace or whose
upper-cased NFKD decomposition minus combining marks is a nonempty
string of non-whitespace, case-stable ASCII characters; this class
contains every ASCII character and all the modelled accented Latin-1
letters (parts 2 and 3), so accented names like JOSÉ are covered.
Unrestricted idempotence fails at U+00A8, whose decomposition emits a
space, and at bare combining marks, whose word vanishes and leaves a
doubled separator. -/
theorem C10_normalize_name_amended :
    (∀ s : PyStr, (∀ c ∈ s, stable_char c = true) →
      normalize_name (normalize_name s) = normalize_name s) ∧
    (∀ c : Nat, c < 128 → stable_char c = true) ∧
    (([193, 201, 205, 211, 218, 209, 220, 225, 233, 237, 243, 250, 241, 252] :
      PyStr).all stable_char = true) := by
  refine ⟨?_, ?_, by decide⟩
  · intro s hs
    have hu : ∀ c ∈ (pyStrip s).map upChar, pyIsSpace c = false →
        block c ≠ [] ∧ ∀ d ∈ block c, d < 128 ∧ pyIsSpace d = false ∧ upChar d = d := by
      intro c hc hcs
      rcases List.mem_map.1 hc with ⟨a, ha, rfl⟩
      have hsa := hs a (mem_pyStrip ha)
      rw [stable_char, Bool.or_eq_true] at hsa
      rcases hsa with h1 | h2
      · rw [upChar_of_space h1, h1] at hcs
        exact Bool.noConfusion hcs
      · rw [Bool.and_eq_true, List.all_eq_true] at h2
        refine ⟨?_, ?_⟩
        · intro hnil
          rw [hnil] at h2
          simp at h2
        · intro d hd
          have hds := h2.2 d hd
          rw [Bool.and_eq_true, Bool.and_eq_true] at hds
          exact ⟨by simpa using hds.1.1, by simpa using hds.1.2, by simpa using hds.2⟩
    have hW : ∀ w ∈ pyWords ((pyStrip s).map upChar),
        w ≠ [] ∧ ∀ c ∈ w, block c ≠ [] ∧
          ∀ d ∈ block c, d < 128 ∧ pyIsSpace d = false ∧ upChar d = d := by
      intro w hw
      have hg := pyWordsAux_good ((pyStrip s).map upChar) [] (by simp) w hw
      refine ⟨hg.1, fun c hc => ?_⟩
      have hcu : c ∈ (pyStrip s).map upChar := by
        rcases (hg.2 c hc).2 with h | h
        · cases h
        · exact h
      exact hu c hcu (hg.2 c hc).1
    have hpass1 : normalize_name s =
        spaceJoin ((pyWords ((pyStrip s).map upChar)).map (fun w => w.flatMap block)) := by
      show ((spaceJoin (pyWords ((pyStrip s).map upChar))).flatMap nfkdChar).filter
          (fun c => !(isCombiningChar c)) = _
      rw [filter_flatMap_blocks, flatMap_block_spaceJoin]
    rw [hpass1, normalize_name_fixes_blocks (pyWords ((pyStrip s).map upChar)) hW]
  · intro c hc
    rw [stable_char, Bool.or_eq_true]
    by_cases hsp : pyIsSpace c = true
    · exact Or.inl hsp
    · right
      have hup : upChar c < 128 := upChar_lt_128 hc
      have hb : block (upChar c) = [upChar c] := block_ascii hup
      have hnsp : pyIsSpace (upChar c) = false := by
        rw [Bool.eq_false_iff]
        intro hcon
        rw [pyIsSpace_eq_true_iff] at hcon
        have hnc : ¬(c = 32 ∨ c = 9 ∨ c = 10 ∨ c = 13 ∨ c = 11 ∨ c = 12 ∨
            c = 28 ∨ c = 29 ∨ c = 30 ∨ c = 31 ∨ c = 133 ∨ c = 160) := by
          intro hx
          exact hsp (pyIsSpace_eq_true_iff.mpr hx)
        unfold upChar at hcon
        split_ifs at hcon <;> omega
      rw [hb, Bool.and_eq_true]
      refine ⟨by simp, ?_⟩
      rw [List.all_eq_true]
      intro d hd
      rw [List.mem_singleton] at hd
      subst hd
      simp [hup, hnsp, upChar_idem]

/-- C10 witness: idempotence at a concrete accented name with extra
whitespace, whose characters the theorem's second and third parts place
in the stable class. -/
theorem C10_normalize_name_amended_witness :
    normalize_name (normalize_name (pstr "  José   Pérez ")) =
      normalize_name (pstr "  José   Pérez ") :=
  C10_normalize_name_amended.1 (pstr "  José   Pérez ") (by decide)
